import Mathlib

/-!
Verification of the block-seek agent core against its specification.

The Python source is shallowly embedded: strings are `List Char`, the
regex-based action grammar of `Web3AgentOutputParser.parse`
(src/block-seek/agent/core.py) is modelled by explicit scanning functions
with the exact leftmost-match semantics of `re.search`, dictionaries are
association lists, real-valued clock times are rationals, and network
calls are abstracted into environments that fix the outcome of every
upstream request.  Fallible Python code returns `Except`.
-/

/-- Python `str` whitespace, the character class stripped by `str.strip()`. -/
def isPyWs (c : Char) : Bool :=
  c == ' ' || c == '\t' || c == '\n' || c == '\r' || c == '\x0b' || c == '\x0c'

/-- Python `str.lstrip()`. -/
def lstrip (s : List Char) : List Char := s.dropWhile isPyWs

/-- Python `str.rstrip()`. -/
def rstrip (s : List Char) : List Char := (s.reverse.dropWhile isPyWs).reverse

/-- Python `str.strip()` (the composition order is immaterial). -/
def pyStrip (s : List Char) : List Char := lstrip (rstrip s)

/-- Boolean prefix test on character lists (Python `str.startswith`). -/
def isPre : List Char → List Char → Bool
  | [], _ => true
  | _ :: _, [] => false
  | a :: as, b :: bs => a == b && isPre as bs

/-- Python substring containment `sep in s`. -/
def containsSub (sep : List Char) : List Char → Bool
  | [] => isPre sep []
  | c :: rest => isPre sep (c :: rest) || containsSub sep rest

/-- Drop everything up to and including the first occurrence of `sep`
(the step that Python `str.split(sep)` takes to consume one separator). -/
def dropThroughFirst (sep : List Char) : List Char → List Char
  | [] => []
  | c :: rest =>
    if isPre sep (c :: rest) then (c :: rest).drop sep.length
    else dropThroughFirst sep rest

/-- Fuelled worker for `afterLastSplit`. -/
def afterLastSplitF (sep : List Char) : Nat → List Char → List Char
  | 0, s => s
  | fuel + 1, s =>
    if containsSub sep s then afterLastSplitF sep fuel (dropThroughFirst sep s)
    else s

/-- Python `s.split(sep)[-1]`: the text after the last (leftmost-scan,
non-overlapping) occurrence of `sep`, or `s` itself when `sep` is absent.
`s.length` is always enough fuel because every consumed separator is
nonempty in all uses below. -/
def afterLastSplit (sep : List Char) (s : List Char) : List Char :=
  afterLastSplitF sep s.length s

/-- Text after the first occurrence of `sep`, if any (the tail that a
leftmost `re.search` match leaves for the capture groups). -/
def findAfterFirst (sep : List Char) : List Char → Option (List Char)
  | [] => none
  | c :: rest =>
    if isPre sep (c :: rest) then some ((c :: rest).drop sep.length)
    else findAfterFirst sep rest

/-- The literal marker `Final Answer:` checked first by the parser. -/
def faMarker : List Char := "Final Answer:".toList

/-- The literal tool-selection marker `Action:`. -/
def actionMarker : List Char := "Action:".toList

/-- The literal tool-input marker `Action Input:`. -/
def actionInputMarker : List Char := "Action Input:".toList

/-- Capture of `re.search(r"Action: *(.*?)[\n$]", text)`: after the first
`Action:` the greedy ` *` eats spaces, the lazy group scans characters
(newline excluded, no DOTALL) and must stop at a literal newline or a
literal dollar character from the class; if neither occurs before the end
of the input, the regex fails to match. -/
def actionCapture (t : List Char) : Option (List Char) :=
  match findAfterFirst actionMarker t with
  | none => none
  | some rest =>
    let r2 := rest.dropWhile (fun c => c == ' ')
    let cap := r2.takeWhile (fun c => !(c == '\n' || c == '$'))
    if cap.length == r2.length then none else some cap

/-- Capture of `re.search(r"Action Input: *(.*?)(?:$|\n)", text, re.DOTALL)`:
after the first `Action Input:` and the greedy spaces, the lazy group ends
at the first position where `$` (end of input) or a newline matches, i.e.
it captures only up to the first newline, not the whole remaining text. -/
def actionInputCapture (t : List Char) : Option (List Char) :=
  match findAfterFirst actionInputMarker t with
  | none => none
  | some rest =>
    some ((rest.dropWhile (fun c => c == ' ')).takeWhile (fun c => !(c == '\n')))

/-- The tool input after the bracket-sniffing JSON fallback: either decoded
structured data or the raw string. -/
inductive ToolInput (J : Type) where
  | json (j : J)
  | str (s : List Char)
deriving DecidableEq

/-- `AgentOutcome`: `AgentFinish` (final answer text plus raw log) or
`AgentAction` (tool name, tool input, raw log). -/
inductive AgentOutcome (J : Type) where
  | finish (output : List Char) (log : List Char)
  | action (tool : List Char) (toolInput : ToolInput J) (log : List Char)
deriving DecidableEq

/-- Message prefix of the `ValueError` raised on a parse failure. -/
def parseErrPre : List Char := "Could not parse LLM output: ".toList

/-- The JSON sniff in `parse`: if the stripped action input starts with an
opening brace and ends with a closing brace, try the decoder `dec`
(abstracting `json.loads`); on decode failure keep the raw string. -/
def inputDecode {J : Type} (dec : List Char → Option J) (s : List Char) : ToolInput J :=
  if (s.head? == some '\x7b') && (s.getLast? == some '\x7d') then
    match dec s with
    | some j => ToolInput.json j
    | none => ToolInput.str s
  else ToolInput.str s

/-- `Web3AgentOutputParser.parse` (core.py lines 404-436): strip the text;
if it contains `Final Answer:` return an `AgentFinish` built from the text
after the last occurrence of that marker, stripped; otherwise run the two
action regexes, raise `ValueError` when either fails, and otherwise return
an `AgentAction` with the stripped captures and the JSON sniff applied to
the action input. -/
def parse {J : Type} (dec : List Char → Option J) (text : List Char) :
    Except (List Char) (AgentOutcome J) :=
  let t := pyStrip text
  if containsSub faMarker t then
    Except.ok (AgentOutcome.finish (pyStrip (afterLastSplit faMarker t)) t)
  else
    match actionCapture t, actionInputCapture t with
    | some a, some ai =>
      Except.ok (AgentOutcome.action (pyStrip a) (inputDecode dec (pyStrip ai)) t)
    | _, _ => Except.error (parseErrPre ++ t)

/-- Unfolding equation for `containsSub` on a nonempty string. -/
theorem containsSub_cons (sep : List Char) (c : Char) (rest : List Char) :
    containsSub sep (c :: rest) = (isPre sep (c :: rest) || containsSub sep rest) := rfl

/-- Unfolding equation for `dropThroughFirst` on a nonempty string. -/
theorem dropThroughFirst_cons (sep : List Char) (c : Char) (rest : List Char) :
    dropThroughFirst sep (c :: rest) =
      if isPre sep (c :: rest) then (c :: rest).drop sep.length
      else dropThroughFirst sep rest := rfl

/-- Unfolding equation for `findAfterFirst` on a nonempty string. -/
theorem findAfterFirst_cons (sep : List Char) (c : Char) (rest : List Char) :
    findAfterFirst sep (c :: rest) =
      if isPre sep (c :: rest) then some ((c :: rest).drop sep.length)
      else findAfterFirst sep rest := rfl

/-- Boolean prefix test agrees with `List.IsPrefix`. -/
theorem isPre_iff (a b : List Char) : isPre a b = true ↔ a <+: b := by
  induction a generalizing b with
  | nil => simp [isPre]
  | cons x as ih =>
    cases b with
    | nil => simp [isPre]
    | cons y bs =>
      simp only [isPre, Bool.and_eq_true, beq_iff_eq, ih, List.cons_prefix_cons]

/-- The empty separator is contained in every string. -/
theorem contains_nil (y : List Char) : containsSub [] y = true := by
  cases y <;> simp [containsSub, isPre]

/-- A prefix occurrence is an occurrence. -/
theorem contains_of_prefix (m s : List Char) (h : m <+: s) : containsSub m s = true := by
  cases s with
  | nil =>
    have : m = [] := List.prefix_nil.mp h
    subst this; rfl
  | cons c r => simp [containsSub, (isPre_iff m (c :: r)).mpr h]

/-- Occurrences survive extending the string on the right. -/
theorem contains_append_right (m x y : List Char) (h : containsSub m x = true) :
    containsSub m (x ++ y) = true := by
  induction x with
  | nil =>
    have : m = [] := List.prefix_nil.mp ((isPre_iff m []).mp h)
    subst this; exact contains_nil y
  | cons c r ih =>
    rw [containsSub_cons, Bool.or_eq_true] at h
    rcases h with h | h
    · have hp : m <+: (c :: r) ++ y := ((isPre_iff m (c :: r)).mp h).trans (List.prefix_append _ y)
      exact contains_of_prefix m ((c :: r) ++ y) hp
    · rw [List.cons_append, containsSub_cons, ih h, Bool.or_true]

/-- An explicitly displayed occurrence makes containment true. -/
theorem contains_mid (m a b : List Char) : containsSub m (a ++ m ++ b) = true := by
  induction a with
  | nil => simpa using contains_of_prefix m (m ++ b) (List.prefix_append m b)
  | cons c r ih =>
    have hshape : (c :: r) ++ m ++ b = c :: (r ++ m ++ b) := by simp
    rw [hshape, containsSub_cons, ih, Bool.or_true]

/-- If a match of `m` starting at the first position fits inside `x`, then
`x` contains `m`. -/
theorem contains_of_isPre_long (m x z : List Char) (h : isPre m (x ++ z) = true)
    (hlen : m.length ≤ x.length) : containsSub m x = true := by
  have hp : m <+: x ++ z := (isPre_iff _ _).mp h
  have htake := List.prefix_iff_eq_take.mp hp
  rw [List.take_append_of_le_length hlen] at htake
  exact contains_of_prefix m x (htake ▸ List.take_prefix m.length x)

/-- A marker with no nonempty proper border cannot match while straddling
the boundary between `x` and a displayed later occurrence. -/
theorem no_border_straddle (m : List Char)
    (hnb : ∀ k, k < m.length → 0 < k → ¬(m.drop k = m.take (m.length - k)))
    (x y : List Char) (hx : x ≠ []) (hlt : x.length < m.length) :
    isPre m (x ++ m ++ y) = false := by
  by_contra h
  have h2 : isPre m (x ++ m ++ y) = true := by
    cases hh : isPre m (x ++ m ++ y)
    · exact absurd hh h
    · rfl
  have hp : m <+: x ++ (m ++ y) := by
    have := (isPre_iff _ _).mp h2
    simpa [List.append_assoc] using this
  have htake := List.prefix_iff_eq_take.mp hp
  rw [List.take_append_eq_append_take, List.take_of_length_le (le_of_lt hlt),
    List.take_append_of_le_length (by omega)] at htake
  have hdrop : m.drop x.length = m.take (m.length - x.length) := by
    conv_lhs => rw [htake]
    exact List.drop_left x (m.take (m.length - x.length))
  exact hnb x.length hlt (List.length_pos.mpr hx) hdrop

/-- One `dropThroughFirst` step on a string with a displayed occurrence of a
border-free marker either peels some prefix (leaving the displayed
occurrence intact) or lands exactly after the displayed occurrence. -/
theorem dropThroughFirst_append (m : List Char)
    (hnb : ∀ k, k < m.length → 0 < k → ¬(m.drop k = m.take (m.length - k)))
    (hm : m ≠ []) :
    ∀ a b : List Char,
      (∃ a2, dropThroughFirst m (a ++ m ++ b) = a2 ++ m ++ b ∧ a2.length < a.length) ∨
        dropThroughFirst m (a ++ m ++ b) = b := by
  intro a b
  induction a with
  | nil =>
    right
    obtain ⟨c, ms, hm'⟩ := List.exists_cons_of_ne_nil hm
    have hpre : isPre m (m ++ b) = true := (isPre_iff _ _).mpr (List.prefix_append m b)
    have hshape : ([] : List Char) ++ m ++ b = c :: (ms ++ b) := by rw [hm']; simp
    have hshape2 : c :: (ms ++ b) = m ++ b := by rw [hm']; simp
    rw [hshape, dropThroughFirst_cons, hshape2, hpre, if_pos rfl, List.drop_left]
  | cons c r ih =>
    have hshape : (c :: r) ++ m ++ b = c :: (r ++ m ++ b) := by simp
    by_cases hp : isPre m ((c :: r) ++ m ++ b) = true
    · left
      have hlen2 : m.length ≤ (c :: r).length := by
        by_contra hgt
        have hns := no_border_straddle m hnb (c :: r) b (by simp) (by omega)
        rw [hns] at hp
        exact Bool.noConfusion hp
      refine ⟨(c :: r).drop m.length, ?_, ?_⟩
      · have hdt : dropThroughFirst m ((c :: r) ++ m ++ b) = ((c :: r) ++ m ++ b).drop m.length := by
          rw [hshape, dropThroughFirst_cons, ← hshape, hp, if_pos rfl]
        rw [hdt, List.drop_append_of_le_length (by simp; omega),
          List.drop_append_of_le_length hlen2]
      · have hd : ((c :: r).drop m.length).length = (c :: r).length - m.length :=
          List.length_drop _ _
        have hm1 : 0 < m.length := List.length_pos.mpr hm
        simp only [hd, List.length_cons]
        omega
    · have hp2 : isPre m (c :: (r ++ m ++ b)) = false := by
        rw [← hshape]
        cases hh : isPre m ((c :: r) ++ m ++ b)
        · rfl
        · exact absurd hh hp
      have hstep : dropThroughFirst m ((c :: r) ++ m ++ b) = dropThroughFirst m (r ++ m ++ b) := by
        rw [hshape, dropThroughFirst_cons, hp2]
        simp
      rcases ih with ⟨a2, heq, hlt⟩ | heq
      · exact Or.inl ⟨a2, hstep.trans heq, Nat.lt_trans hlt (by simp)⟩
      · exact Or.inr (hstep.trans heq)

/-- With no occurrence of the separator, `afterLastSplitF` is the identity. -/
theorem afterLastSplitF_of_not_contains (m s : List Char) (fuel : Nat)
    (h : containsSub m s = false) : afterLastSplitF m fuel s = s := by
  cases fuel <;> simp [afterLastSplitF, h]

/-- `split(sep)[-1]` of `a ++ sep ++ b` is `b` whenever `b` is free of the
border-free separator, for any sufficiently large fuel. -/
theorem afterLastSplitF_append (m : List Char)
    (hnb : ∀ k, k < m.length → 0 < k → ¬(m.drop k = m.take (m.length - k)))
    (hm : m ≠ []) :
    ∀ (fuel : Nat) (a b : List Char), a.length < fuel → containsSub m b = false →
      afterLastSplitF m fuel (a ++ m ++ b) = b := by
  intro fuel
  induction fuel with
  | zero => intro a b h _; exact absurd h (Nat.not_lt_zero _)
  | succ n ih =>
    intro a b hlen hb
    simp only [afterLastSplitF, contains_mid m a b, if_true]
    rcases dropThroughFirst_append m hnb hm a b with ⟨a2, heq, hlt⟩ | heq
    · rw [heq]
      exact ih a2 b (by omega) hb
    · rw [heq]
      exact afterLastSplitF_of_not_contains m b n hb

/-- `split(sep)[-1]` of `a ++ sep ++ b` is `b` when `b` is separator-free. -/
theorem afterLastSplit_append (m : List Char)
    (hnb : ∀ k, k < m.length → 0 < k → ¬(m.drop k = m.take (m.length - k)))
    (hm : m ≠ []) (a b : List Char) (hb : containsSub m b = false) :
    afterLastSplit m (a ++ m ++ b) = b := by
  have hm1 : 0 < m.length := List.length_pos.mpr hm
  refine afterLastSplitF_append m hnb hm _ a b ?_ hb
  simp [List.length_append]
  omega

/-- `dropWhile` passes over a block whose end is flagged by a failing
character. -/
theorem dropWhile_append_cons (p : Char → Bool) (a : List Char) (x : Char)
    (xs : List Char) (hx : p x = false) :
    (a ++ x :: xs).dropWhile p = a.dropWhile p ++ x :: xs := by
  induction a with
  | nil => simp [List.dropWhile_cons, hx]
  | cons c r ih =>
    by_cases h : p c
    · simp [List.dropWhile_cons, h, ih]
    · simp [List.dropWhile_cons, h]

/-- `dropWhile` is idempotent. -/
theorem dropWhile_self (p : Char → Bool) (l : List Char) :
    (l.dropWhile p).dropWhile p = l.dropWhile p := by
  induction l with
  | nil => rfl
  | cons c r ih =>
    by_cases h : p c
    · simp [List.dropWhile_cons, h, ih]
    · simp [List.dropWhile_cons, h]

/-- `rstrip` is idempotent. -/
theorem rstrip_idem (s : List Char) : rstrip (rstrip s) = rstrip s := by
  unfold rstrip
  rw [List.reverse_reverse, dropWhile_self]

/-- `lstrip` distributes over an append whose right block starts with a
non-whitespace character. -/
theorem lstrip_append (x : List Char) (c : Char) (ys : List Char)
    (hc : isPyWs c = false) : lstrip (x ++ c :: ys) = lstrip x ++ c :: ys :=
  dropWhile_append_cons isPyWs x c ys hc

/-- `rstrip` distributes over an append whose left block ends with a
non-whitespace character. -/
theorem rstrip_append (A post : List Char) (c : Char) (cs : List Char)
    (hA : A.reverse = c :: cs) (hc : isPyWs c = false) :
    rstrip (A ++ post) = A ++ rstrip post := by
  have hA2 : A = (c :: cs).reverse := by
    rw [← hA, List.reverse_reverse]
  unfold rstrip
  rw [List.reverse_append, hA, dropWhile_append_cons isPyWs post.reverse c cs hc,
    List.reverse_append, hA2]

/-- Every string is its `rstrip` followed by a whitespace tail. -/
theorem rstrip_decomp (s : List Char) :
    s = rstrip s ++ (s.reverse.takeWhile isPyWs).reverse := by
  unfold rstrip
  rw [← List.reverse_append, List.takeWhile_append_dropWhile, List.reverse_reverse]

/-- Freedom from a separator passes to the `rstrip`. -/
theorem contains_rstrip_false (m s : List Char) (h : containsSub m s = false) :
    containsSub m (rstrip s) = false := by
  cases hh : containsSub m (rstrip s)
  · rfl
  · have := contains_append_right m (rstrip s) ((s.reverse.takeWhile isPyWs).reverse) hh
    rw [← rstrip_decomp s] at this
    rw [this] at h
    exact Bool.noConfusion h

/-- The marker `Final Answer:` has no nonempty proper border. -/
theorem faMarker_no_border :
    ∀ k, k < faMarker.length → 0 < k →
      ¬(faMarker.drop k = faMarker.take (faMarker.length - k)) := by decide

/-- The marker `Action:` has no nonempty proper border. -/
theorem actionMarker_no_border :
    ∀ k, k < actionMarker.length → 0 < k →
      ¬(actionMarker.drop k = actionMarker.take (actionMarker.length - k)) := by decide

/-- The marker `Action Input:` has no nonempty proper border. -/
theorem actionInputMarker_no_border :
    ∀ k, k < actionInputMarker.length → 0 < k →
      ¬(actionInputMarker.drop k = actionInputMarker.take (actionInputMarker.length - k)) := by
  decide

/-- `strip` of a string with a displayed `Final Answer:` occurrence strips
each side independently of the marker. -/
theorem pyStrip_faMarker_decomp (pre post : List Char) :
    pyStrip (pre ++ faMarker ++ post) = lstrip pre ++ faMarker ++ rstrip post := by
  have hrev : (pre ++ faMarker).reverse = ':' :: (":rewsnA laniF".toList.tail ++ pre.reverse) := by
    rw [List.reverse_append]
    rfl
  have hstep1 : rstrip ((pre ++ faMarker) ++ post) = (pre ++ faMarker) ++ rstrip post :=
    rstrip_append (pre ++ faMarker) post ':' _ hrev (by decide)
  unfold pyStrip
  rw [hstep1]
  have hshape : (pre ++ faMarker) ++ rstrip post
      = pre ++ 'F' :: ("inal Answer:".toList ++ rstrip post) := by
    simp [faMarker]
  rw [hshape, lstrip_append pre 'F' _ (by decide)]
  simp [faMarker]

/-- Claim C2: for every input string containing the marker `Final Answer:`
(written as `pre ++ faMarker ++ post` with a marker-free `post`, which
singles out the last occurrence), the parser returns an `AgentFinish`
whose output text is everything after that last occurrence, stripped of
surrounding whitespace, even when `Action:`/`Action Input:` markers are
also present anywhere in `pre` or `post`. -/
theorem parse_final_answer_last {J : Type} (dec : List Char → Option J)
    (pre post : List Char) (hpost : containsSub faMarker post = false) :
    parse dec (pre ++ faMarker ++ post) =
      Except.ok (AgentOutcome.finish (pyStrip post)
        (pyStrip (pre ++ faMarker ++ post))) := by
  have hdecomp := pyStrip_faMarker_decomp pre post
  have hrpost : containsSub faMarker (rstrip post) = false :=
    contains_rstrip_false _ _ hpost
  have hafter : afterLastSplit faMarker (lstrip pre ++ faMarker ++ rstrip post)
      = rstrip post :=
    afterLastSplit_append faMarker faMarker_no_border (by decide)
      (lstrip pre) (rstrip post) hrpost
  have hout : pyStrip (rstrip post) = pyStrip post := by
    unfold pyStrip
    rw [rstrip_idem]
  simp only [parse, hdecomp, contains_mid faMarker (lstrip pre) (rstrip post),
    if_true, hafter, hout]

/-- Witness for C2 at a concrete input: reasoning text, then the marker,
then the final answer text with surrounding whitespace. -/
theorem parse_final_answer_last_w :
    parse (fun _ => (none : Option Unit))
        (("Thought: done\n".toList) ++ faMarker ++ (" 42 ".toList)) =
      Except.ok (AgentOutcome.finish (pyStrip (" 42 ".toList))
        (pyStrip (("Thought: done\n".toList) ++ faMarker ++ (" 42 ".toList)))) :=
  parse_final_answer_last (fun _ => none) ("Thought: done\n".toList)
    (" 42 ".toList) (by decide)

/-- The first occurrence of a nonempty border-free separator in
`x ++ sep ++ y` with separator-free `x` is the displayed one, so the text
after it is exactly `y`. -/
theorem findAfterFirst_append (m : List Char)
    (hnb : ∀ k, k < m.length → 0 < k → ¬(m.drop k = m.take (m.length - k)))
    (hm : m ≠ []) (x y : List Char) (hx : containsSub m x = false) :
    findAfterFirst m (x ++ m ++ y) = some y := by
  induction x with
  | nil =>
    obtain ⟨c, ms, hm'⟩ := List.exists_cons_of_ne_nil hm
    have hpre : isPre m (m ++ y) = true := (isPre_iff _ _).mpr (List.prefix_append m y)
    have hshape : ([] : List Char) ++ m ++ y = c :: (ms ++ y) := by rw [hm']; simp
    have hshape2 : c :: (ms ++ y) = m ++ y := by rw [hm']; simp
    rw [hshape, findAfterFirst_cons, hshape2, hpre, if_pos rfl, List.drop_left]
  | cons c r ih =>
    rw [containsSub_cons, Bool.or_eq_false_iff] at hx
    have hshape : (c :: r) ++ m ++ y = c :: (r ++ m ++ y) := by simp
    have hp2 : isPre m (c :: (r ++ m ++ y)) = false := by
      rw [← hshape]
      rcases le_or_lt m.length (c :: r).length with hle | hgt
      · cases hh : isPre m ((c :: r) ++ m ++ y)
        · rfl
        · exfalso
          have hcontains : containsSub m (c :: r) = true := by
            refine contains_of_isPre_long m (c :: r) (m ++ y) ?_ hle
            rw [List.append_assoc] at hh
            exact hh
          rw [containsSub_cons, hx.1, hx.2] at hcontains
          simp at hcontains
      · exact no_border_straddle m hnb (c :: r) y (by simp) hgt
    rw [hshape, findAfterFirst_cons, hp2]
    simp only [Bool.false_eq_true, if_false]
    exact ih hx.2

/-- `dropWhile` does nothing when the head (if any) fails the predicate. -/
theorem dropWhile_head_fails (p : Char → Bool) (l : List Char)
    (h : ∀ c, l.head? = some c → p c = false) : l.dropWhile p = l := by
  cases l with
  | nil => rfl
  | cons c r => simp [List.dropWhile_cons, h c rfl]

/-- `takeWhile` captures exactly a passing block closed off by a failing
character. -/
theorem takeWhile_append_cons (p : Char → Bool) (a : List Char) (x : Char)
    (xs : List Char) (ha : ∀ c ∈ a, p c = true) (hx : p x = false) :
    (a ++ x :: xs).takeWhile p = a := by
  induction a with
  | nil => simp [List.takeWhile_cons, hx]
  | cons c r ih =>
    have hc : p c = true := ha c (by simp)
    simp [List.takeWhile_cons, hc, ih (fun d hd => ha d (by simp [hd]))]

/-- `dropWhile` skips over a block of passing characters. -/
theorem dropWhile_append_all (p : Char → Bool) (a l : List Char)
    (ha : ∀ c ∈ a, p c = true) : (a ++ l).dropWhile p = l.dropWhile p := by
  induction a with
  | nil => rfl
  | cons c r ih =>
    have hc : p c = true := ha c (by simp)
    simp only [List.cons_append, List.dropWhile_cons, hc, if_true]
    exact ih (fun d hd => ha d (by simp [hd]))

/-- The `Action:` capture on a string whose first `Action:` occurrence is
followed by spaces and a newline-terminated tool-name line. -/
theorem actionCapture_displayed (x sp T y : List Char)
    (hx : containsSub actionMarker x = false)
    (hsp : ∀ c ∈ sp, (c == ' ') = true)
    (hT : ∀ c ∈ T, (c == '\n' || c == '$') = false)
    (hTh : T.head? ≠ some ' ') :
    actionCapture (x ++ actionMarker ++ (sp ++ (T ++ '\n' :: y))) = some T := by
  have hfind := findAfterFirst_append actionMarker actionMarker_no_border
    (by decide) x (sp ++ (T ++ '\n' :: y)) hx
  have hdw0 : (T ++ '\n' :: y).dropWhile (fun c => c == ' ') = T ++ '\n' :: y := by
    refine dropWhile_head_fails _ _ (fun c hc => ?_)
    cases T with
    | nil =>
      simp at hc
      subst hc
      rfl
    | cons t ts =>
      simp at hc
      subst hc
      have : t ≠ ' ' := fun h => hTh (by rw [h]; rfl)
      simpa using this
  have hdw : (sp ++ (T ++ '\n' :: y)).dropWhile (fun c => c == ' ') = T ++ '\n' :: y := by
    rw [dropWhile_append_all _ sp _ hsp, hdw0]
  have htw : (T ++ '\n' :: y).takeWhile (fun c => !(c == '\n' || c == '$')) = T :=
    takeWhile_append_cons _ T '\n' y
      (fun c hc => by rw [hT c hc]; rfl) (by decide)
  have hne : (T.length == (T ++ '\n' :: y).length) = false := by
    refine beq_eq_false_iff_ne.mpr ?_
    simp only [List.length_append, List.length_cons]
    omega
  simp only [actionCapture, hfind, hdw, htw, hne]
  rfl

/-- The `Action Input:` capture on a string whose first `Action Input:`
occurrence is followed by spaces and the payload, cut off at the first
newline. -/
theorem actionInputCapture_displayed (x sp I y : List Char)
    (hx : containsSub actionInputMarker x = false)
    (hsp : ∀ c ∈ sp, (c == ' ') = true)
    (hI : ∀ c ∈ I, (c == '\n') = false)
    (hIh : I.head? ≠ some ' ') :
    actionInputCapture (x ++ actionInputMarker ++ (sp ++ (I ++ '\n' :: y))) = some I := by
  have hfind := findAfterFirst_append actionInputMarker actionInputMarker_no_border
    (by decide) x (sp ++ (I ++ '\n' :: y)) hx
  have hdw0 : (I ++ '\n' :: y).dropWhile (fun c => c == ' ') = I ++ '\n' :: y := by
    refine dropWhile_head_fails _ _ (fun c hc => ?_)
    cases I with
    | nil =>
      simp at hc
      subst hc
      rfl
    | cons t ts =>
      simp at hc
      subst hc
      have : t ≠ ' ' := fun h => hIh (by rw [h]; rfl)
      simpa using this
  have hdw : (sp ++ (I ++ '\n' :: y)).dropWhile (fun c => c == ' ') = I ++ '\n' :: y := by
    rw [dropWhile_append_all _ sp _ hsp, hdw0]
  have htw : (I ++ '\n' :: y).takeWhile (fun c => !(c == '\n')) = I :=
    takeWhile_append_cons _ I '\n' y
      (fun c hc => by rw [hI c hc]; rfl) (by decide)
  simp only [actionInputCapture, hfind, hdw, htw]

/-- Claim C3 (counterexample): on an `Action:`/`Action Input:` pair whose
JSON payload spans two lines, the parser keeps only the part of the
payload before the first newline (here as a raw string, since the
truncated text no longer ends with a closing brace), not the entire text
to the end of the content, even with a decoder that accepts everything. -/
theorem parse_action_multiline_cex :
    parse (fun s => (some s : Option (List Char)))
        (("Action: T\nAction Input: \x7b\x22a\x22: 1,\n\x22b\x22: 2\x7d").toList) =
      Except.ok (AgentOutcome.action (("T").toList)
        (ToolInput.str (("\x7b\x22a\x22: 1,").toList))
        (("Action: T\nAction Input: \x7b\x22a\x22: 1,\n\x22b\x22: 2\x7d").toList)) ∧
    (("\x7b\x22a\x22: 1,").toList : List Char)
      ≠ ("\x7b\x22a\x22: 1,\n\x22b\x22: 2\x7d").toList := by
  constructor
  · rfl
  · decide

/-- Claim C3 (amended): for every input whose stripped form lays out a
first `Action:` marker, spaces, a tool name `T`, a newline, then a first
`Action Input:` marker, spaces, a payload `I` and a newline, and which has
no `Final Answer:` marker, the parser returns an `AgentAction` with tool
name `T` stripped and tool input the text after `Action Input:` only up to
the first newline (not the entire remaining content), with the JSON sniff
applied to that single-line payload. -/
theorem parse_action_single_line {J : Type} (dec : List Char → Option J)
    (t pre sp1 T sp2 I rest : List Char)
    (hdec : pyStrip t = pre ++ actionMarker
      ++ (sp1 ++ (T ++ '\n' :: (actionInputMarker ++ (sp2 ++ (I ++ '\n' :: rest))))))
    (hfa : containsSub faMarker (pyStrip t) = false)
    (hpreA : containsSub actionMarker pre = false)
    (hpreAI : containsSub actionInputMarker
      (pre ++ actionMarker ++ (sp1 ++ (T ++ ['\n']))) = false)
    (hsp1 : ∀ c ∈ sp1, (c == ' ') = true)
    (hsp2 : ∀ c ∈ sp2, (c == ' ') = true)
    (hT : ∀ c ∈ T, (c == '\n' || c == '$') = false)
    (hTh : T.head? ≠ some ' ')
    (hI : ∀ c ∈ I, (c == '\n') = false)
    (hIh : I.head? ≠ some ' ') :
    parse dec t = Except.ok (AgentOutcome.action (pyStrip T)
      (inputDecode dec (pyStrip I)) (pyStrip t)) := by
  have hcapA : actionCapture (pyStrip t) = some T := by
    rw [hdec]
    exact actionCapture_displayed pre sp1 T
      (actionInputMarker ++ (sp2 ++ (I ++ '\n' :: rest))) hpreA hsp1 hT hTh
  have hshape : pre ++ actionMarker
      ++ (sp1 ++ (T ++ '\n' :: (actionInputMarker ++ (sp2 ++ (I ++ '\n' :: rest)))))
      = (pre ++ actionMarker ++ (sp1 ++ (T ++ ['\n']))) ++ actionInputMarker
        ++ (sp2 ++ (I ++ '\n' :: rest)) := by
    simp [List.append_assoc]
  have hcapAI : actionInputCapture (pyStrip t) = some I := by
    rw [hdec, hshape]
    exact actionInputCapture_displayed _ sp2 I rest hpreAI hsp2 hI hIh
  simp only [parse, hfa, Bool.false_eq_true, if_false, hcapA, hcapAI]

/-- Witness for amended C3 at a concrete input in the standard format. -/
theorem parse_action_single_line_w :
    parse (fun _ => (none : Option Unit))
        (("Action: TokenTool\nAction Input: price BTC\nThought").toList) =
      Except.ok (AgentOutcome.action (pyStrip (("TokenTool").toList))
        (inputDecode (fun _ => none) (pyStrip (("price BTC").toList)))
        (pyStrip (("Action: TokenTool\nAction Input: price BTC\nThought").toList))) :=
  parse_action_single_line (fun _ => none)
    (("Action: TokenTool\nAction Input: price BTC\nThought").toList)
    ([]) ([' ']) (("TokenTool").toList) ([' ']) (("price BTC").toList)
    (("Thought").toList)
    (by decide) (by decide) (by decide) (by decide) (by decide) (by decide)
    (by decide) (by decide) (by decide) (by decide)

/-- Role of a transcript message (`HumanMessage` / `AIMessage`). -/
inductive Role where
  | human
  | ai
deriving DecidableEq

/-- One `ConversationTurn` of the transcript. -/
structure Msg where
  role : Role
  content : List Char
deriving DecidableEq

/-- `EntityContext` (core.py lines 33-35): the last analyzed address. -/
structure EntityContext where
  last_address : Option (List Char)
deriving DecidableEq

/-- State of `EnhancedConversationMemory` (core.py lines 37-43): the
transcript held by the buffer-memory base class plus the entity context
added by the subclass. -/
structure Memory where
  messages : List Msg
  entity_context : EntityContext
deriving DecidableEq

/-- Python lowercase folding of one character (`str.lower()` on ASCII). -/
def pyLowerChar (c : Char) : Char :=
  if 'A' ≤ c && c ≤ 'Z' then Char.ofNat (c.toNat + 32) else c

/-- Python `str.lower()`. -/
def pyLower (s : List Char) : List Char := s.map pyLowerChar

/-- The character class `[a-fA-F0-9]` of the address regex. -/
def isHexCh (c : Char) : Bool :=
  ('0' ≤ c && c ≤ '9') || ('a' ≤ c && c ≤ 'f') || ('A' ≤ c && c ≤ 'F')

/-- A match of `0x[a-fA-F0-9]{40}` anchored at the start of `s`. -/
def matchAddrAt (s : List Char) : Option (List Char) :=
  match s with
  | c1 :: c2 :: rest =>
    if c1 == '0' && c2 == 'x' && (rest.take 40).length == 40
        && (rest.take 40).all isHexCh then
      some (c1 :: c2 :: rest.take 40)
    else none
  | _ => none

/-- The first (leftmost) match of `re.findall(r'0x[a-fA-F0-9]{40}', s)`. -/
def findFirstAddr : List Char → Option (List Char)
  | [] => none
  | c :: rest =>
    match matchAddrAt (c :: rest) with
    | some tok => some tok
    | none => findFirstAddr rest

/-- `EnhancedConversationMemory.save_context` (core.py lines 45-55).  The
transcript append performed by `super().save_context` lives in the
external buffer-memory base class; per the spec, the query and the answer
are appended to the transcript at turn end.  The subclass then lowercases
the raw input (`inputs.get("input", "").lower()`), scans it with the
address regex, and on a match stores the first match in the entity
context. -/
def save_context (m : Memory) (input output : List Char) : Memory :=
  let m2 : Memory :=
    { m with messages := m.messages ++ [⟨Role.human, input⟩, ⟨Role.ai, output⟩] }
  match findFirstAddr (pyLower input) with
  | some addr => { m2 with entity_context := { last_address := some addr } }
  | none => m2

/-- `Web3Agent.clear_memory` (core.py lines 343-345) calls `memory.clear()`.
Modelled from the spec: the `clear` implementation lives in the external
buffer-memory base class, which resets the transcript it owns;
`EnhancedConversationMemory` (core.py lines 37-55) does not override
`clear`, so the subclass field `entity_context` is left untouched. -/
def clear_memory (m : Memory) : Memory := { m with messages := [] }

/-- Claim C5 (counterexample): after a turn that stores an address, the
reset operation empties the transcript but the stored `last_address` is
still set, not `None` as the claim requires. -/
theorem clear_memory_keeps_address_cex :
    (clear_memory (save_context ⟨[], ⟨none⟩⟩
        (("check balance of 0xABCDEF0123456789ABCDEF0123456789ABCDEF01").toList)
        (("done").toList))).messages = [] ∧
    (clear_memory (save_context ⟨[], ⟨none⟩⟩
        (("check balance of 0xABCDEF0123456789ABCDEF0123456789ABCDEF01").toList)
        (("done").toList))).entity_context.last_address
      = some (("0xabcdef0123456789abcdef0123456789abcdef01").toList) ∧
    some (("0xabcdef0123456789abcdef0123456789abcdef01").toList)
      ≠ (none : Option (List Char)) := by
  refine ⟨rfl, rfl, by decide⟩

/-- Claim C5 (amended): the reset operation clears the conversation
transcript but leaves the entity context exactly as it was (in particular
a once-set `last_address` is not cleared by reset), and saving a turn
never clears a once-set `last_address` either — it can only overwrite it
with another address. -/
theorem clear_memory_transcript_only (m : Memory) (input output : List Char) :
    (clear_memory m).messages = [] ∧
    (clear_memory m).entity_context = m.entity_context ∧
    (∀ a, m.entity_context.last_address = some a →
      ∃ b, (save_context m input output).entity_context.last_address = some b) := by
  refine ⟨rfl, rfl, fun a ha => ?_⟩
  unfold save_context
  cases h : findFirstAddr (pyLower input) with
  | none => exact ⟨a, by simp [h, ha]⟩
  | some addr => exact ⟨addr, by simp [h]⟩

/-- Witness for amended C5: saving a further turn on a memory whose
address is set leaves some address set. -/
theorem clear_memory_transcript_only_w :
    ∃ b, (save_context ⟨[], ⟨some (("0xaaaa").toList)⟩⟩
      (("hello there").toList) (("ok").toList)).entity_context.last_address = some b :=
  (clear_memory_transcript_only ⟨[], ⟨some (("0xaaaa").toList)⟩⟩
    (("hello there").toList) (("ok").toList)).2.2 (("0xaaaa").toList) rfl

/-- Claim C6 (counterexample): the spec's own example query with an
uppercase address stores the lowercased token, not the literal token with
the letter case as supplied. -/
theorem save_context_lowercases_cex :
    (save_context ⟨[], ⟨none⟩⟩
        (("check balance of 0xABCDEF0123456789ABCDEF0123456789ABCDEF01").toList)
        (("done").toList)).entity_context.last_address
      = some (("0xabcdef0123456789abcdef0123456789abcdef01").toList) ∧
    (("0xabcdef0123456789abcdef0123456789abcdef01").toList : List Char)
      ≠ ("0xABCDEF0123456789ABCDEF0123456789ABCDEF01").toList := by
  refine ⟨rfl, by decide⟩

/-- Every result of `matchAddrAt` is `0x` followed by exactly 40 hex
characters. -/
theorem matchAddrAt_shape (s tok : List Char) (h : matchAddrAt s = some tok) :
    ∃ h40, tok = '0' :: 'x' :: h40 ∧ h40.length = 40 ∧ h40.all isHexCh = true := by
  match s with
  | [] => exact absurd h (by simp [matchAddrAt])
  | [c] => exact absurd h (by simp [matchAddrAt])
  | c1 :: c2 :: rest =>
    rw [show matchAddrAt (c1 :: c2 :: rest)
        = if c1 == '0' && c2 == 'x' && (rest.take 40).length == 40
            && (rest.take 40).all isHexCh then
          some (c1 :: c2 :: rest.take 40)
        else none from rfl] at h
    by_cases hc : (c1 == '0' && c2 == 'x' && (rest.take 40).length == 40
        && (rest.take 40).all isHexCh) = true
    · simp only [hc, if_true, Option.some.injEq] at h
      simp only [Bool.and_eq_true, beq_iff_eq] at hc
      refine ⟨rest.take 40, ?_, hc.1.2, hc.2⟩
      rw [← h, hc.1.1.1, hc.1.1.2]
    · rw [if_neg (by simpa using hc)] at h
      exact absurd h (by simp)

/-- Every result of `findFirstAddr` is `0x` followed by exactly 40 hex
characters. -/
theorem findFirstAddr_shape (l tok : List Char) (h : findFirstAddr l = some tok) :
    ∃ h40, tok = '0' :: 'x' :: h40 ∧ h40.length = 40 ∧ h40.all isHexCh = true := by
  induction l with
  | nil => exact absurd h (by simp [findFirstAddr])
  | cons c rest ih =>
    rw [show findFirstAddr (c :: rest)
        = (match matchAddrAt (c :: rest) with
           | some tok => some tok
           | none => findFirstAddr rest) from rfl] at h
    cases hm : matchAddrAt (c :: rest) with
    | some t2 =>
      rw [hm] at h
      simp only [Option.some.injEq] at h
      exact h ▸ matchAddrAt_shape (c :: rest) t2 hm
    | none =>
      rw [hm] at h
      exact ih h

/-- Claim C6 (amended): when the lowercased query contains an
address-shaped token, saving the turn stores the first match of the
address regex against the lowercased query, i.e. the token as lowercased
by `str.lower()`, not necessarily with the letter case as supplied. -/
theorem save_context_first_lowered_address (m : Memory) (input output tok : List Char)
    (h : findFirstAddr (pyLower input) = some tok) :
    (save_context m input output).entity_context.last_address = some tok ∧
    ∃ h40, tok = '0' :: 'x' :: h40 ∧ h40.length = 40 ∧ h40.all isHexCh = true := by
  constructor
  · simp [save_context, h]
  · exact findFirstAddr_shape _ tok h

/-- Witness for amended C6 at the spec's example query. -/
theorem save_context_first_lowered_address_w :
    (save_context ⟨[], ⟨none⟩⟩
        (("check balance of 0xABCDEF0123456789ABCDEF0123456789ABCDEF01").toList)
        (("done").toList)).entity_context.last_address
      = some (("0xabcdef0123456789abcdef0123456789abcdef01").toList) ∧
    ∃ h40, (("0xabcdef0123456789abcdef0123456789abcdef01").toList : List Char)
      = '0' :: 'x' :: h40 ∧ h40.length = 40 ∧ h40.all isHexCh = true :=
  save_context_first_lowered_address ⟨[], ⟨none⟩⟩
    (("check balance of 0xABCDEF0123456789ABCDEF0123456789ABCDEF01").toList)
    (("done").toList)
    (("0xabcdef0123456789abcdef0123456789abcdef01").toList) rfl

/-- The literal substring guard `'address' not in query.lower()`. -/
def addressWord : List Char := "address".toList

/-- The cue list `['it', 'that', 'the', 'this']` checked by substring
containment against the lowercased query (core.py line 296). -/
def cueWords : List (List Char) :=
  [("it").toList, ("that").toList, ("the").toList, ("this").toList]

/-- The literal glue of the rewrite `f"{query} for address {address}"`. -/
def forAddressLit : List Char := " for address ".toList

/-- Python truthiness of the optional stored address (`None` and the empty
string are falsy). -/
def optTruthy : Option (List Char) → Bool
  | none => false
  | some s => !s.isEmpty

/-- The `"\n".join(f"{k}: {v}" ...)` rendering of the extra context map. -/
def contextRender : List (List Char × List Char) → List Char
  | [] => []
  | [(k, v)] => k ++ (": ").toList ++ v
  | (k, v) :: rest => k ++ (": ").toList ++ v ++ '\n' :: contextRender rest

/-- `Web3Agent._format_query_with_context` (core.py lines 288-306): if the
substring `address` does not occur in the lowercased query, the stored
address is truthy, and one of the cue strings occurs as a substring of the
lowercased query, the query is rewritten by appending
` for address <stored address>`; then any extra context map is appended. -/
def format_query_with_context (mem : Memory) (query : List Char)
    (context : List (List Char × List Char)) : List Char :=
  let q1 :=
    if !(containsSub addressWord (pyLower query))
        && optTruthy mem.entity_context.last_address
        && cueWords.any (fun w => containsSub w (pyLower query)) then
      query ++ forAddressLit ++ mem.entity_context.last_address.getD []
    else query
  if context.isEmpty then q1
  else q1 ++ ("\nContext:\n").toList ++ contextRender context

/-- Claim C7 (counterexample): a query that does contain an address-shaped
token (and a cue word, and not the literal substring `address`) is still
rewritten by appending the stored address, contradicting the claim that
queries containing such a token are not rewritten. -/
theorem format_query_rewrites_with_token_cex :
    format_query_with_context
        ⟨[], ⟨some (("0xabcdef0123456789abcdef0123456789abcdef01").toList)⟩⟩
        (("what about it 0xabcdef0123456789abcdef0123456789abcdef01").toList) []
      = (("what about it 0xabcdef0123456789abcdef0123456789abcdef01").toList)
        ++ forAddressLit ++ (("0xabcdef0123456789abcdef0123456789abcdef01").toList) ∧
    findFirstAddr (pyLower
        (("what about it 0xabcdef0123456789abcdef0123456789abcdef01").toList))
      = some (("0xabcdef0123456789abcdef0123456789abcdef01").toList) ∧
    format_query_with_context
        ⟨[], ⟨some (("0xabcdef0123456789abcdef0123456789abcdef01").toList)⟩⟩
        (("what about it 0xabcdef0123456789abcdef0123456789abcdef01").toList) []
      ≠ (("what about it 0xabcdef0123456789abcdef0123456789abcdef01").toList) := by
  refine ⟨rfl, rfl, by decide⟩

/-- Claim C7 (amended): with a nonempty stored address, the rewrite fires
exactly when the literal substring `address` does not occur in the
lowercased query and one of the cue strings `it`/`that`/`the`/`this`
occurs as a substring of the lowercased query (regardless of whether the
query contains an address-shaped token); it appends
` for address <stored address>`. -/
theorem format_query_rewrite_condition (mem : Memory) (q addr : List Char)
    (h : mem.entity_context.last_address = some addr) (hne : addr ≠ []) :
    format_query_with_context mem q [] =
      if containsSub addressWord (pyLower q) = false
          ∧ cueWords.any (fun w => containsSub w (pyLower q)) = true then
        q ++ forAddressLit ++ addr
      else q := by
  have hEmpty : addr.isEmpty = false := by
    cases addr with
    | nil => exact absurd rfl hne
    | cons c r => rfl
  cases hc1 : containsSub addressWord (pyLower q) <;>
    cases hc2 : cueWords.any (fun w => containsSub w (pyLower q)) <;>
      simp [format_query_with_context, h, optTruthy, hEmpty, hc1, hc2]

/-- Witness for amended C7 at the spec's example follow-up query. -/
theorem format_query_rewrite_condition_w :
    format_query_with_context ⟨[], ⟨some (("0xabc").toList)⟩⟩
        (("what about its transactions").toList) [] =
      if containsSub addressWord (pyLower (("what about its transactions").toList)) = false
          ∧ cueWords.any (fun w =>
              containsSub w (pyLower (("what about its transactions").toList))) = true then
        (("what about its transactions").toList) ++ forAddressLit ++ (("0xabc").toList)
      else (("what about its transactions").toList) :=
  format_query_rewrite_condition ⟨[], ⟨some (("0xabc").toList)⟩⟩
    (("what about its transactions").toList) (("0xabc").toList) rfl (by decide)

/-- The fixed iteration bound (`max_iterations=5`, core.py line 248). -/
def maxIterations : Nat := 5

/-- One scratchpad entry: a dispatched action with the observation it
returned, or a parse-failure correction folded back as an observation. -/
inductive ScratchEntry (J : Type) where
  | obs (act : AgentOutcome J) (observation : List Char)
  | parseFailure (msg : List Char)

/-- Terminal states of one orchestration run. -/
inductive LoopResult where
  | done (answer : List Char)
  | failed
deriving DecidableEq

/-- Modelled from the spec: the OrchestrationLoop state machine of
section 4.3.  The executor implementation is an external agent-execution
library, not in src/; the repository only configures it with
`max_iterations=5` and `handle_parsing_errors=True`
(`Web3Agent._create_agent_executor`, core.py lines 242-250).  Each cycle
renders the prompt from the scratchpad, invokes the model
(`model : scratchpad → raw text`), and parses the output with the real
`parse`; `FinalAnswer` ends the run in `DONE`, a tool invocation is
dispatched (observation supplied by `exec`) and appended to the
scratchpad, and a parse failure folds the error text back as a corrective
observation.  The fuel is the remaining iteration budget; exhausting it
forces `FAILED`.  The second component counts the executed
render/model-invoke cycles. -/
def runLoopAux {J : Type} (dec : List Char → Option J)
    (exec : List Char → ToolInput J → List Char)
    (model : List (ScratchEntry J) → List Char) :
    List (ScratchEntry J) → Nat → LoopResult × Nat
  | _, 0 => (LoopResult.failed, 0)
  | scratch, fuel + 1 =>
    let out := model scratch
    match parse dec out with
    | Except.error e =>
      let r := runLoopAux dec exec model (scratch ++ [ScratchEntry.parseFailure e]) fuel
      (r.1, r.2 + 1)
    | Except.ok (AgentOutcome.finish ans _) => (LoopResult.done ans, 1)
    | Except.ok (AgentOutcome.action tool inp log) =>
      let observation := exec tool inp
      let r := runLoopAux dec exec model
        (scratch ++ [ScratchEntry.obs (AgentOutcome.action tool inp log) observation]) fuel
      (r.1, r.2 + 1)

/-- One orchestration run: empty scratchpad, full iteration budget. -/
def runLoop {J : Type} (dec : List Char → Option J)
    (exec : List Char → ToolInput J → List Char)
    (model : List (ScratchEntry J) → List Char) : LoopResult × Nat :=
  runLoopAux dec exec model [] maxIterations

/-- The cycle count never exceeds the fuel. -/
theorem runLoopAux_le {J : Type} (dec : List Char → Option J)
    (exec : List Char → ToolInput J → List Char)
    (model : List (ScratchEntry J) → List Char) :
    ∀ (fuel : Nat) (scratch : List (ScratchEntry J)),
      (runLoopAux dec exec model scratch fuel).2 ≤ fuel := by
  intro fuel
  induction fuel with
  | zero => intro scratch; exact Nat.le_refl 0
  | succ n ih =>
    intro scratch
    simp only [runLoopAux]
    cases parse dec (model scratch) with
    | error e => simpa using ih (scratch ++ [ScratchEntry.parseFailure e])
    | ok o =>
      cases o with
      | finish ans log => simp
      | action tool inp log =>
        simpa using ih (scratch ++ [ScratchEntry.obs (AgentOutcome.action tool inp log)
          (exec tool inp)])

/-- Under an always-unparsable model the loop burns all its fuel and
fails. -/
theorem runLoopAux_all_err {J : Type} (dec : List Char → Option J)
    (exec : List Char → ToolInput J → List Char)
    (model : List (ScratchEntry J) → List Char)
    (h : ∀ scratch, ∃ e, parse dec (model scratch) = Except.error e) :
    ∀ (fuel : Nat) (scratch : List (ScratchEntry J)),
      runLoopAux dec exec model scratch fuel = (LoopResult.failed, fuel) := by
  intro fuel
  induction fuel with
  | zero => intro scratch; rfl
  | succ n ih =>
    intro scratch
    obtain ⟨e, he⟩ := h scratch
    simp only [runLoopAux, he, ih (scratch ++ [ScratchEntry.parseFailure e])]

/-- Claim C1: every run executes at most 5 render/model-invoke cycles, and
with a model whose output never parses the run terminates in the FAILED
state after exactly 5 cycles — it never loops forever. -/
theorem loop_iteration_bound {J : Type} (dec : List Char → Option J)
    (exec : List Char → ToolInput J → List Char)
    (model : List (ScratchEntry J) → List Char) :
    (runLoop dec exec model).2 ≤ 5 ∧
    ((∀ scratch, ∃ e, parse dec (model scratch) = Except.error e) →
      runLoop dec exec model = (LoopResult.failed, 5)) :=
  ⟨runLoopAux_le dec exec model maxIterations [],
    fun h => runLoopAux_all_err dec exec model h maxIterations []⟩

/-- Witness for C1: a model that always emits the same unparsable text
makes the run fail after exactly 5 cycles. -/
theorem loop_iteration_bound_w :
    runLoop (fun _ => (none : Option Unit)) (fun _ _ => ([] : List Char))
        (fun _ => ("garbage").toList)
      = (LoopResult.failed, 5) :=
  (loop_iteration_bound (fun _ => (none : Option Unit)) (fun _ _ => ([] : List Char))
      (fun _ => ("garbage").toList)).2
    (fun _ => ⟨parseErrPre ++ ("garbage").toList, rfl⟩)

/-- Normalized tool envelope (`BaseTool.format_output` /
`BaseTool.handle_error`, base.py lines 50-65): a success payload or an
error message, in both cases tagged with the tool name. -/
inductive ToolResult (V : Type) where
  | success (tool : List Char) (result : V)
  | error (tool : List Char) (error_msg : List Char)
deriving DecidableEq

/-- The `NFTTool` name (base.py line 36 sets it to the class name). -/
def nftToolName : List Char := "NFTTool".toList

/-- Message of the `ToolException` raised by `NFTTool.validate_input`. -/
def invalidNFTAddrMsg : List Char := "Invalid NFT contract address".toList

/-- Message of the `ToolException` raised by `calculate_rarity_scores`
when no assets were fetched. -/
def rarityFailMsg : List Char := "Failed to fetch assets for rarity calculation".toList

/-- Upstream responses of the paginated `/assets` fetch used by
`calculate_rarity_scores`: for each `(offset, page_limit)` request either
a failed envelope (`success` false) or the page's asset list (the
`data["assets"]` value; an asset is abstract). -/
structure RarityEnv (A : Type) where
  fetch : Nat → Nat → Except Unit (List A)

/-- The `while len(assets) < limit` pagination loop of
`calculate_rarity_scores` (nft.py lines 115-138): request
`min(50, limit - len(assets))` assets at the current offset; stop on a
failed response or an empty asset list; otherwise extend the assets and
advance the offset by the page size.  Fuelled structurally: `limit` fuel
always suffices because every continuing iteration appends at least one
asset while `len(assets) < limit`. -/
def fetchAssetsF {A : Type} (env : RarityEnv A) (limit : Nat) :
    Nat → List A → Nat → List A
  | 0, assets, _ => assets
  | fuel + 1, assets, offset =>
    if assets.length < limit then
      match env.fetch offset (min 50 (limit - assets.length)) with
      | Except.error _ => assets
      | Except.ok [] => assets
      | Except.ok (a :: more) =>
        fetchAssetsF env limit fuel (assets ++ a :: more) (offset + (a :: more).length)
    else assets

/-- The asset list accumulated by the pagination loop, from an empty list
and offset 0. -/
def fetchAssets {A : Type} (env : RarityEnv A) (limit : Nat) : List A :=
  fetchAssetsF env limit limit [] 0

/-- `NFTTool.calculate_rarity_scores` (nft.py lines 109-141): paginate the
collection's assets; if none were fetched raise
`ToolException("Failed to fetch assets for rarity calculation")`;
otherwise the function body simply ends — there is no return statement on
the success path, so Python returns `None` (`Except.ok none` here).  `W`
is the type a rarity-score dictionary would have; no value of it is ever
produced. -/
def calculate_rarity_scores (W : Type) {A : Type} (env : RarityEnv A)
    (limit : Nat) : Except (List Char) (Option W) :=
  let assets := fetchAssets env limit
  if assets.isEmpty then Except.error rarityFailMsg
  else Except.ok none

/-- Claim C8: for every environment and limit, the rarity-scoring path
never produces a rarity result: it either raises (no assets fetched) or
falls off the end of the function returning `None` — the capability is
non-functional for every input. -/
theorem rarity_scores_no_result (W : Type) {A : Type} (env : RarityEnv A)
    (limit : Nat) :
    calculate_rarity_scores W env limit = Except.error rarityFailMsg ∨
    calculate_rarity_scores W env limit = Except.ok none := by
  unfold calculate_rarity_scores
  cases h : (fetchAssets env limit).isEmpty <;> simp [h]

/-- The structured arguments of `NFTTool.execute` (`kwargs` backed by the
`NFTToolInputs` schema, nft.py lines 11-17); `none` means the keyword was
absent so that `kwargs.get` falls back to its default. -/
structure NFTArgs where
  include_rarity : Bool
  limit : Option Nat
  include_sales : Bool
  days : Option Nat
  token_id : Option Int

/-- Default `NFT_ANALYSIS_LIMIT` (settings.py line 57). -/
def NFT_ANALYSIS_LIMIT : Nat := 1000

/-- Environment fixing the outcome of each helper coroutine awaited by
`NFTTool.execute`: `isAddr` abstracts `Web3.is_address`; the network-bound
helpers (`get_collection_stats`, `get_sales_history`,
`get_token_metadata`) each either raise (carrying the exception's message,
whatever its class) or return a payload of the abstract type `V`;
`priceAnalysis` abstracts the pure `analyze_price_trends` computation; the
rarity pagination uses its own sub-environment and the real
`calculate_rarity_scores`. -/
structure NFTEnv (V : Type) where
  isAddr : List Char → Bool
  collectionStats : Except (List Char) V
  rarity : RarityEnv V
  salesHistory : Nat → Except (List Char) V
  priceAnalysis : V → V
  tokenMetadata : Int → Except (List Char) V

/-- The result dictionary assembled by `NFTTool.execute`; optional fields
are present only when requested.  `rarity_analysis`, when requested and
not raising, holds the `None` that `calculate_rarity_scores` returns. -/
structure NFTResult (V : Type) where
  collection_stats : V
  rarity_analysis : Option (Option V)
  sales_history : Option V
  price_analysis : Option V
  token_metadata : Option V

/-- The `try` body of `NFTTool.execute` (nft.py lines 198-228): validate
the address (raising `ToolException` when `Web3.is_address` rejects it),
fetch collection stats, then optionally rarity analysis (with
`limit = kwargs.get("limit", NFT_ANALYSIS_LIMIT)`), sales history and
price analysis (`days = kwargs.get("days", 30)`), and token metadata.
Any raised exception propagates out of the body as `Except.error`. -/
def nftExecuteBody (V : Type) (env : NFTEnv V) (contract_address : List Char)
    (args : NFTArgs) : Except (List Char) (NFTResult V) :=
  if env.isAddr contract_address = false then Except.error invalidNFTAddrMsg
  else
    match env.collectionStats with
    | Except.error e => Except.error e
    | Except.ok stats =>
      let rarityStep : Except (List Char) (Option (Option V)) :=
        if args.include_rarity then
          match calculate_rarity_scores V env.rarity (args.limit.getD NFT_ANALYSIS_LIMIT) with
          | Except.error e => Except.error e
          | Except.ok r => Except.ok (some r)
        else Except.ok none
      match rarityStep with
      | Except.error e => Except.error e
      | Except.ok rarity =>
        let salesStep : Except (List Char) (Option V × Option V) :=
          if args.include_sales then
            match env.salesHistory (args.days.getD 30) with
            | Except.error e => Except.error e
            | Except.ok sales => Except.ok (some sales, some (env.priceAnalysis sales))
          else Except.ok (none, none)
        match salesStep with
        | Except.error e => Except.error e
        | Except.ok (sales, price) =>
          let metaStep : Except (List Char) (Option V) :=
            match args.token_id with
            | some tid =>
              match env.tokenMetadata tid with
              | Except.error e => Except.error e
              | Except.ok md => Except.ok (some md)
            | none => Except.ok none
          match metaStep with
          | Except.error e => Except.error e
          | Except.ok md => Except.ok ⟨stats, rarity, sales, price, md⟩

/-- `NFTTool.execute` (nft.py lines 196-231): run the body inside
`try`/`except Exception`; a normal return is wrapped by `format_output`
into a success envelope, any raised exception is converted by
`handle_error` into `{status: error, tool: NFTTool, error: str(e)}`. -/
def nftExecute (V : Type) (env : NFTEnv V) (contract_address : List Char)
    (args : NFTArgs) : ToolResult (NFTResult V) :=
  match nftExecuteBody V env contract_address args with
  | Except.ok r => ToolResult.success nftToolName r
  | Except.error e => ToolResult.error nftToolName e

/-- Claim C4: `NFTTool.execute` never raises to its caller: every run
yields either a success envelope or an error envelope
`{status: error, tool: NFTTool, error: msg}`; in particular an invalid
address yields the validation error envelope, and a failing upstream
stats fetch yields an error envelope carrying that failure's message. -/
theorem nft_execute_never_raises (V : Type) (env : NFTEnv V)
    (contract_address : List Char) (args : NFTArgs) :
    ((∃ r, nftExecute V env contract_address args
        = ToolResult.success nftToolName r) ∨
      (∃ msg, nftExecute V env contract_address args
        = ToolResult.error nftToolName msg)) ∧
    (env.isAddr contract_address = false →
      nftExecute V env contract_address args
        = ToolResult.error nftToolName invalidNFTAddrMsg) ∧
    (∀ e, env.isAddr contract_address = true → env.collectionStats = Except.error e →
      nftExecute V env contract_address args = ToolResult.error nftToolName e) := by
  refine ⟨?_, ?_, ?_⟩
  · cases h : nftExecuteBody V env contract_address args with
    | ok r => exact Or.inl ⟨r, by simp [nftExecute, h]⟩
    | error e => exact Or.inr ⟨e, by simp [nftExecute, h]⟩
  · intro h
    simp [nftExecute, nftExecuteBody, h]
  · intro e ha hcs
    simp [nftExecute, nftExecuteBody, ha, hcs]

/-- Witness for C4: an address rejected by the validator produces the
validation error envelope. -/
theorem nft_execute_never_raises_w :
    nftExecute Unit
        ⟨fun _ => false, Except.ok (), ⟨fun _ _ => Except.error ()⟩,
          fun _ => Except.ok (), fun v => v, fun _ => Except.ok ()⟩
        (("not-an-address").toList) ⟨false, none, false, none, none⟩
      = ToolResult.error nftToolName invalidNFTAddrMsg :=
  (nft_execute_never_raises Unit
      ⟨fun _ => false, Except.ok (), ⟨fun _ _ => Except.error ()⟩,
        fun _ => Except.ok (), fun v => v, fun _ => Except.ok ()⟩
      (("not-an-address").toList) ⟨false, none, false, none, none⟩).2.1 rfl

/-- A fastapi `HTTPException`. -/
structure HTTPError where
  status_code : Nat
  detail : List Char
deriving DecidableEq

/-- The 429 raised by `check_rate_limit` (api.py lines 22-25). -/
def rateLimitErr : HTTPError := ⟨429, ("Rate limit exceeded").toList⟩

/-- Dictionary lookup on the per-key timestamp table. -/
def lookupTime : List (List Char × ℚ) → List Char → Option ℚ
  | [], _ => none
  | (k, t) :: rest, key => if k = key then some t else lookupTime rest key

/-- Dictionary assignment `d[key] = t`. -/
def insertTime : List (List Char × ℚ) → List Char → ℚ → List (List Char × ℚ)
  | [], key, t => [(key, t)]
  | (k, v) :: rest, key, t =>
    if k = key then (k, t) :: rest else (k, v) :: insertTime rest key t

/-- `RateLimiter` state (api.py lines 7-13): the configured
requests-per-second (an int in the source; embedded as a rational so that
the interval `1.0 / requests_per_second` is exact) and the per-key
last-request timestamps. -/
structure RateLimiter where
  requests_per_second : ℚ
  last_request_time : List (List Char × ℚ)
deriving DecidableEq

/-- `RateLimiter.check_rate_limit` (api.py lines 15-26) at clock reading
`now` (`time.time()`, embedded as a rational): if the key has a recorded
timestamp and less than `1.0 / requests_per_second` has passed, raise the
429 — the `raise` aborts before the assignment on line 26, so the state is
unchanged (here: `Except.error` returns no new state).  Otherwise record
`now` for the key. -/
def check_rate_limit (rl : RateLimiter) (key : List Char) (now : ℚ) :
    Except HTTPError RateLimiter :=
  match lookupTime rl.last_request_time key with
  | some t =>
    if now - t < 1 / rl.requests_per_second then Except.error rateLimitErr
    else Except.ok { rl with last_request_time := insertTime rl.last_request_time key now }
  | none => Except.ok { rl with last_request_time := insertTime rl.last_request_time key now }

/-- Assignment followed by lookup of the same key yields the new value. -/
theorem lookupTime_insertTime (l : List (List Char × ℚ)) (key : List Char) (t : ℚ) :
    lookupTime (insertTime l key t) key = some t := by
  induction l with
  | nil => simp [insertTime, lookupTime]
  | cons p rest ih =>
    obtain ⟨k, v⟩ := p
    by_cases h : k = key
    · simp [insertTime, lookupTime, h]
    · simp [insertTime, lookupTime, h, ih]

/-- Claim C9: a call is rejected (fast 429, not a queued wait) iff the key
has a recorded timestamp less than `1 / requests_per_second` old; the
first call for a key is always allowed; an allowed call records its
timestamp under the key (only allowed calls reach the assignment, and a
rejected call leaves the table unchanged, which the `Except` encoding
makes structural). -/
theorem check_rate_limit_spec (rl : RateLimiter) (key : List Char) (now : ℚ)
    (hpos : 0 < rl.requests_per_second) :
    ((∃ e, check_rate_limit rl key now = Except.error e) ↔
      (∃ t, lookupTime rl.last_request_time key = some t
        ∧ now - t < 1 / rl.requests_per_second)) ∧
    (lookupTime rl.last_request_time key = none →
      check_rate_limit rl key now
        = Except.ok { rl with
            last_request_time := insertTime rl.last_request_time key now }) ∧
    (∀ rl2, check_rate_limit rl key now = Except.ok rl2 →
      lookupTime rl2.last_request_time key = some now
        ∧ rl2.requests_per_second = rl.requests_per_second) := by
  refine ⟨?_, ?_, ?_⟩
  · cases hl : lookupTime rl.last_request_time key with
    | none =>
      simp only [check_rate_limit, hl]
      constructor
      · rintro ⟨e, he⟩
        exact absurd he (by simp)
      · rintro ⟨t, ht, _⟩
        exact absurd ht (by simp)
    | some t =>
      by_cases hlt : now - t < 1 / rl.requests_per_second
      · simp only [check_rate_limit, hl, if_pos hlt]
        exact ⟨fun _ => ⟨t, rfl, hlt⟩, fun _ => ⟨rateLimitErr, rfl⟩⟩
      · simp only [check_rate_limit, hl, if_neg hlt]
        constructor
        · rintro ⟨e, he⟩
          exact absurd he (by simp)
        · rintro ⟨t2, ht2, hlt2⟩
          rw [Option.some.injEq] at ht2
          exact absurd (ht2 ▸ hlt2) hlt
  · intro hl
    simp only [check_rate_limit, hl]
  · intro rl2 h
    cases hl : lookupTime rl.last_request_time key with
    | none =>
      simp only [check_rate_limit, hl, Except.ok.injEq] at h
      rw [← h]
      exact ⟨lookupTime_insertTime _ _ _, rfl⟩
    | some t =>
      by_cases hlt : now - t < 1 / rl.requests_per_second
      · simp only [check_rate_limit, hl, if_pos hlt] at h
        exact absurd h (by simp)
      · simp only [check_rate_limit, hl, if_neg hlt, Except.ok.injEq] at h
        rw [← h]
        exact ⟨lookupTime_insertTime _ _ _, rfl⟩

/-- Witness for C9: the first call for a fresh key is allowed and records
its timestamp. -/
theorem check_rate_limit_spec_w :
    check_rate_limit ⟨10, []⟩ (("opensea").toList) 5
      = Except.ok ⟨10, [((("opensea").toList), 5)]⟩ :=
  (check_rate_limit_spec ⟨10, []⟩ (("opensea").toList) 5 (by norm_num)).2.1 rfl

/-- Outcome of one transport attempt inside `make_request`: an HTTP
response (status code plus abstract payload covering both the JSON and the
text branch), or one of the three caught exception kinds
(`asyncio.TimeoutError`, `aiohttp.ClientError`, any other `Exception`). -/
inductive Attempt (V : Type) where
  | resp (status : Nat) (body : V)
  | timeout
  | clientError (msg : List Char)
  | exn (msg : List Char)

/-- Result dictionary of `make_request`: `ok` is the
`{"success": True, "data": ..., "status_code": ...}` envelope, `err` the
`{"success": False, "error": ..., ...}` envelopes with the optional
`status_code` (present only in the HTTP-status case; the free-text
`detail` field is not modelled). -/
inductive MkResult (V : Type) where
  | ok (data : V) (status_code : Nat)
  | err (error_msg : List Char) (status_code : Option Nat)
deriving DecidableEq

/-- The error string `f"HTTP {response.status}"`. -/
def httpErrMsg (status : Nat) : List Char :=
  ("HTTP ").toList ++ (Nat.repr status).toList

/-- The `for attempt in range(retry_count)` retry loop of
`APIHandler.make_request` (api.py lines 177-234): a response whose status
`// 100` is not 2 or 3 returns the HTTP-error envelope at once; a 2xx/3xx
response returns the success envelope; a caught exception returns its
error envelope on the final attempt and otherwise sleeps and retries.
Falling out of the loop (possible only when `retry_count = 0`) returns
Python `None`.  `attempt` is the Python loop index; the fuel
`retry_count - attempt` keeps the recursion structural.  The second
component counts the attempts performed. -/
def mkRequestLoop (V : Type) (env : Nat → Attempt V) (retry_count : Nat) :
    Nat → Nat → Option (MkResult V) × Nat
  | 0, _ => (none, 0)
  | fuel + 1, attempt =>
    if attempt < retry_count then
      match env attempt with
      | Attempt.resp status body =>
        if status / 100 == 2 || status / 100 == 3 then
          (some (MkResult.ok body status), 1)
        else (some (MkResult.err (httpErrMsg status) (some status)), 1)
      | Attempt.timeout =>
        if attempt == retry_count - 1 then
          (some (MkResult.err (("Request timeout").toList) none), 1)
        else
          let r := mkRequestLoop V env retry_count fuel (attempt + 1)
          (r.1, r.2 + 1)
      | Attempt.clientError _ =>
        if attempt == retry_count - 1 then
          (some (MkResult.err (("Connection error").toList) none), 1)
        else
          let r := mkRequestLoop V env retry_count fuel (attempt + 1)
          (r.1, r.2 + 1)
      | Attempt.exn _ =>
        if attempt == retry_count - 1 then
          (some (MkResult.err (("Request failed").toList) none), 1)
        else
          let r := mkRequestLoop V env retry_count fuel (attempt + 1)
          (r.1, r.2 + 1)
    else (none, 0)

/-- `APIHandler.make_request` (api.py lines 121-234): check the rate
limiter for the API name first (a raised 429 propagates to the caller,
uncaught), then run the bounded retry loop over the transport attempts
fixed by `env`. -/
def make_request (V : Type) (rl : RateLimiter) (api_name : List Char) (now : ℚ)
    (env : Nat → Attempt V) (retry_count : Nat) :
    Except HTTPError ((Option (MkResult V) × Nat) × RateLimiter) :=
  match check_rate_limit rl api_name now with
  | Except.error e => Except.error e
  | Except.ok rl2 => Except.ok (mkRequestLoop V env retry_count retry_count 0, rl2)

/-- Claim C10: when the first attempt yields an HTTP response whose status
is outside the 2xx/3xx range, `make_request` returns the
`{success: false, error: "HTTP <status>"}` envelope immediately after
exactly one attempt — the retry budget is only for raised transport
failures and is not consumed by HTTP error statuses. -/
theorem make_request_http_no_retry (V : Type) (rl : RateLimiter)
    (api_name : List Char) (now : ℚ) (env : Nat → Attempt V)
    (retry_count : Nat) (rl2 : RateLimiter) (status : Nat) (body : V)
    (hrl : check_rate_limit rl api_name now = Except.ok rl2)
    (henv : env 0 = Attempt.resp status body)
    (h2 : status / 100 ≠ 2) (h3 : status / 100 ≠ 3) (hrc : 0 < retry_count) :
    make_request V rl api_name now env retry_count
      = Except.ok ((some (MkResult.err (httpErrMsg status) (some status)), 1), rl2) := by
  obtain ⟨k, rfl⟩ : ∃ k, retry_count = k + 1 := ⟨retry_count - 1, by omega⟩
  have hcond : (status / 100 == 2 || status / 100 == 3) = false := by
    simp [h2, h3]
  simp only [make_request, hrl, mkRequestLoop, Nat.zero_lt_succ, if_true, henv, hcond,
    Bool.false_eq_true, if_false]

/-- Witness for C10: a 404 on the first attempt with a fresh rate-limiter
key returns the HTTP-error envelope after one attempt. -/
theorem make_request_http_no_retry_w :
    make_request Unit ⟨10, []⟩ (("opensea").toList) 0
        (fun _ => Attempt.resp 404 ()) 3
      = Except.ok ((some (MkResult.err (httpErrMsg 404) (some 404)), 1),
          ⟨10, [((("opensea").toList), 0)]⟩) :=
  make_request_http_no_retry Unit ⟨10, []⟩ (("opensea").toList) 0
    (fun _ => Attempt.resp 404 ()) 3 ⟨10, [((("opensea").toList), 0)]⟩ 404 ()
    rfl rfl (by decide) (by decide) (by decide)
